import Mathlib

set_option maxRecDepth 8000

/- Shallow embedding of the core functions of app.py (YouTube-Title-Tool):
   generate_titles, predict_ctr (heuristic fallback), optimize_length and the
   power-word-swap rule of generate_ab_test_variants.  Python strings are
   modelled as lists of characters; every call to the random module is
   modelled by an arbitrary choice stream, reduced into range with a modulus. -/

/-- Python strings are modelled as lists of characters. -/
abbrev Str := List Char

/-- View a Lean string literal as a character list. -/
def strToL (s : String) : Str := s.data

/-- Whitespace test of the Python str.split method with no separator. -/
def isPySpace (c : Char) : Bool :=
  c == ' ' || c == '\t' || c == '\n' || c == '\r' || c == '\x0b' || c == '\x0c'

/-- Does the first list occur at the head of the second one. -/
def listStartsWith : Str → Str → Bool
  | [], _ => true
  | _ :: _, [] => false
  | x :: xs, y :: ys => if x = y then listStartsWith xs ys else false

/-- Substring containment, the Python in operator on strings. -/
def isSubstr (n : Str) : Str → Bool
  | [] => n.isEmpty
  | c :: cs => listStartsWith n (c :: cs) || isSubstr n cs

/-- Python str.lower, via the character-level case folding of Char.toLower. -/
def lowerStr (s : Str) : Str := s.map Char.toLower

/-- Accumulator automaton behind Python str.split with no separator. -/
def splitWsAux : Str → Str → List Str
  | [], acc => if acc.isEmpty then [] else [acc.reverse]
  | c :: cs, acc =>
    if isPySpace c then
      if acc.isEmpty then splitWsAux cs []
      else acc.reverse :: splitWsAux cs []
    else splitWsAux cs (c :: acc)

/-- Python str.split with no separator: maximal runs of non-whitespace. -/
def splitWs (s : Str) : List Str := splitWsAux s []

/-- Python single-space str.join of a word list. -/
def joinSp : List Str → Str
  | [] => []
  | [w] => w
  | w :: ws => w ++ ' ' :: joinSp ws

/-- Model of random.choice from a non-empty list: an arbitrary stream value
    reduced into range by a modulus.  The default is never used on the
    non-empty catalogs of app.py. -/
def pick {α : Type} (d : α) (l : List α) (i : Nat) : α := l.getD (i % l.length) d

/-- Decimal rendering of a natural number, Python str on an int. -/
def natToStr (n : Nat) : Str := strToL (Nat.repr n)

/-- POWER_WORDS constant of app.py. -/
def POWER_WORDS : List Str :=
  [ strToL "Secret", strToL "Ultimate", strToL "Amazing", strToL "Proven",
    strToL "Shocking", strToL "Unbelievable", strToL "Essential",
    strToL "Complete", strToL "Exact", strToL "Perfect", strToL "Absolute",
    strToL "Advanced", strToL "Never Seen Before", strToL "Insider",
    strToL "Exclusive", strToL "Guaranteed", strToL "Instant",
    strToL "Limited", strToL "Breakthrough", strToL "Master" ]

/-- TEMPLATES constant of app.py. -/
def TEMPLATES : List Str :=
  [ strToL "\x7bnumber\x7d \x7bpower_word\x7d \x7bkeyword\x7d Tips Nobody Tells You",
    strToL "The \x7bpower_word\x7d Guide to \x7bkeyword\x7d [You Need This]",
    strToL "How I \x7bkeyword\x7d Like a Pro (\x7bpower_word\x7d Method)",
    strToL "\x7bnumber\x7d \x7bkeyword\x7d Hacks That Actually Work",
    strToL "This \x7bpower_word\x7d \x7bkeyword\x7d Trick Will Change Everything",
    strToL "Why Nobody Talks About \x7bkeyword\x7d (And What To Do)",
    strToL "\x7bnumber\x7d Minute \x7bkeyword\x7d Masterclass (\x7bpower_word\x7d Results)",
    strToL "\x7bkeyword\x7d Explained: \x7bpower_word\x7d \x7bnumber\x7d-Step System",
    strToL "The \x7bpower_word\x7d Truth About \x7bkeyword\x7d",
    strToL "\x7bnumber\x7d \x7bpower_word\x7d Ways to \x7bkeyword\x7d Fast" ]

/-- Anchor-number list of generate_titles. -/
def NUMBERS : List Nat := [3, 5, 7, 10, 13, 15, 21]

/-- Bracket suffixes of optimize_length. -/
def ADDITIONS : List Str :=
  [ strToL "[2024]", strToL "[Pro Tip]", strToL "[Works!]", strToL "[Free]" ]

/-- The while loop of the long-title branch of optimize_length.  Each pass
    pops the word at a random interior index 2 .. length - 2 while the joined
    length exceeds 60 and more than 5 words remain.  The loop removes one word
    per pass, so fuel equal to the initial word count makes the fuel bound
    unreachable (the loop condition already fails on fewer than 6 words). -/
def shortenFuel (f : Nat → Nat) : Nat → Nat → List Str → List Str
  | 0, _, ws => ws
  | n + 1, k, ws =>
    if 60 < (joinSp ws).length ∧ 5 < ws.length then
      shortenFuel f n (k + 1) (ws.eraseIdx (2 + f k % (ws.length - 3)))
    else ws

/-- The fully fuelled shortening loop of optimize_length. -/
def shorten (f : Nat → Nat) (ws : List Str) : List Str := shortenFuel f ws.length 0 ws

/-- optimize_length of app.py.  The stream f drives the pop choices of the
    shortening loop and g the choice of the appended bracket suffix. -/
def optimize_length (f : Nat → Nat) (g : Nat) (title : Str) : Str :=
  if title.length < 40 then title ++ ' ' :: pick [] ADDITIONS g
  else if 65 < title.length then joinSp (shorten f (splitWs title))
  else title

/-- C5: optimize_length returns every title whose length lies between 40 and
    65 (inclusive) unchanged. -/
theorem optimize_length_mid_id (f : Nat → Nat) (g : Nat) (t : Str)
    (h1 : 40 ≤ t.length) (h2 : t.length ≤ 65) : optimize_length f g t = t := by
  unfold optimize_length
  rw [if_neg (by omega), if_neg (by omega)]

/-- C5 witness: a concrete 45-character title is returned unchanged. -/
theorem optimize_length_mid_id_w :
    40 ≤ (List.replicate 45 'a').length ∧ (List.replicate 45 'a').length ≤ 65 ∧
      optimize_length (fun _ => 0) 0 (List.replicate 45 'a') = List.replicate 45 'a' :=
  ⟨by decide, by decide,
    optimize_length_mid_id (fun _ => 0) 0 (List.replicate 45 'a') (by decide) (by decide)⟩

/-- A word as produced by splitWs: non-empty and free of whitespace. -/
def goodWord (w : Str) : Prop := w ≠ [] ∧ ∀ c ∈ w, isPySpace c = false

/-- All words of a list are non-empty and free of whitespace. -/
def goodWords (ws : List Str) : Prop := ∀ w ∈ ws, goodWord w

theorem splitWsAux_nonspace (w : Str) (hw : ∀ c ∈ w, isPySpace c = false) :
    ∀ (s acc : Str), splitWsAux (w ++ s) acc = splitWsAux s (w.reverse ++ acc) := by
  induction w with
  | nil => intro s acc; simp
  | cons c w ih =>
    intro s acc
    have hc : isPySpace c = false := hw c (by simp)
    have hwt : ∀ d ∈ w, isPySpace d = false := fun d hd => hw d (by simp [hd])
    show splitWsAux (c :: (w ++ s)) acc = _
    simp only [splitWsAux, hc, Bool.false_eq_true, if_false]
    rw [ih hwt s (c :: acc)]
    simp

theorem splitWsAux_good : ∀ (s acc : Str), (∀ c ∈ acc, isPySpace c = false) →
    ∀ w ∈ splitWsAux s acc, goodWord w := by
  intro s
  induction s with
  | nil =>
    intro acc hacc w hw
    by_cases h : acc.isEmpty = true
    · simp [splitWsAux, h] at hw
    · simp [splitWsAux, h] at hw
      subst hw
      refine ⟨?_, fun c hc => hacc c (List.mem_reverse.mp hc)⟩
      rw [Bool.not_eq_true, List.isEmpty_eq_false] at h
      exact mt List.reverse_eq_nil_iff.mp h
  | cons c cs ih =>
    intro acc hacc w hw
    by_cases hsp : isPySpace c = true
    · by_cases hne : acc.isEmpty = true
      · simp only [splitWsAux, hsp, if_true, hne] at hw
        exact ih [] (by simp) w hw
      · simp [splitWsAux, hsp, hne] at hw
        rcases hw with hw | hw
        · subst hw
          refine ⟨?_, fun d hd => hacc d (List.mem_reverse.mp hd)⟩
          rw [Bool.not_eq_true, List.isEmpty_eq_false] at hne
          exact mt List.reverse_eq_nil_iff.mp hne
        · exact ih [] (by simp) w hw
    · simp [splitWsAux, hsp] at hw
      refine ih (c :: acc) ?_ w hw
      intro d hd
      rcases List.mem_cons.mp hd with hd | hd
      · subst hd; simpa using hsp
      · exact hacc d hd

theorem splitWs_good (s : Str) : goodWords (splitWs s) :=
  fun w hw => splitWsAux_good s [] (by simp) w hw

theorem splitWs_joinSp : ∀ (ws : List Str), goodWords ws → splitWs (joinSp ws) = ws := by
  intro ws
  induction ws with
  | nil => intro _; rfl
  | cons w ws ih =>
    intro h
    have hw : goodWord w := h w (by simp)
    have hne : w.reverse.isEmpty = false :=
      List.isEmpty_eq_false.mpr (mt List.reverse_eq_nil_iff.mp hw.1)
    cases ws with
    | nil =>
      show splitWsAux (joinSp [w]) [] = [w]
      have h1 : splitWsAux (w ++ []) [] = splitWsAux [] (w.reverse ++ []) :=
        splitWsAux_nonspace w hw.2 [] []
      rw [List.append_nil, List.append_nil] at h1
      show splitWsAux w [] = [w]
      rw [h1]
      simp [splitWsAux, hne]
    | cons w2 ws2 =>
      show splitWsAux (joinSp (w :: w2 :: ws2)) [] = w :: w2 :: ws2
      rw [show joinSp (w :: w2 :: ws2) = w ++ ' ' :: joinSp (w2 :: ws2) from rfl]
      rw [splitWsAux_nonspace w hw.2 (' ' :: joinSp (w2 :: ws2)) []]
      rw [List.append_nil]
      have hsp : isPySpace ' ' = true := by decide
      simp only [splitWsAux, hsp, if_true, hne, Bool.false_eq_true, if_false,
        List.reverse_reverse]
      have hts : goodWords (w2 :: ws2) := fun v hv => h v (by simp [hv])
      rw [show splitWsAux (joinSp (w2 :: ws2)) [] = splitWs (joinSp (w2 :: ws2)) from rfl,
        ih hts]

theorem shortenFuel_post (f : Nat → Nat) : ∀ (n k : Nat) (ws : List Str),
    ws.length ≤ n →
    ¬(60 < (joinSp (shortenFuel f n k ws)).length ∧ 5 < (shortenFuel f n k ws).length) := by
  intro n
  induction n with
  | zero =>
    intro k ws hl
    have hnil : ws = [] := List.length_eq_zero.mp (Nat.le_zero.mp hl)
    subst hnil
    simp [shortenFuel]
  | succ n ih =>
    intro k ws hl
    by_cases hc : 60 < (joinSp ws).length ∧ 5 < ws.length
    · rw [shortenFuel, if_pos hc]
      apply ih
      have hidx : 2 + f k % (ws.length - 3) < ws.length := by
        have := Nat.mod_lt (f k) (show 0 < ws.length - 3 by omega)
        omega
      rw [List.length_eraseIdx, if_pos hidx]
      omega
    · rw [shortenFuel, if_neg hc]
      exact hc

theorem shortenFuel_good (f : Nat → Nat) : ∀ (n k : Nat) (ws : List Str),
    goodWords ws → goodWords (shortenFuel f n k ws) := by
  intro n
  induction n with
  | zero => intro k ws h; exact h
  | succ n ih =>
    intro k ws h
    by_cases hc : 60 < (joinSp ws).length ∧ 5 < ws.length
    · rw [shortenFuel, if_pos hc]
      exact ih _ _ (fun w hw => h w (List.eraseIdx_subset ws _ hw))
    · rw [shortenFuel, if_neg hc]
      exact h

theorem shortenFuel_noop (f : Nat → Nat) (n k : Nat) (ws : List Str)
    (h : ¬(60 < (joinSp ws).length ∧ 5 < ws.length)) : shortenFuel f n k ws = ws := by
  cases n with
  | zero => rfl
  | succ n => rw [shortenFuel, if_neg h]

theorem optimize_length_long_eq (f : Nat → Nat) (g : Nat) (t : Str) (h : 65 < t.length) :
    optimize_length f g t = joinSp (shorten f (splitWs t)) := by
  unfold optimize_length
  rw [if_neg (by omega), if_pos h]

/-- C1 (amended): on a title longer than 65 characters, every run of
    optimize_length returns a string that has length at most 60 or consists of
    at most 5 whitespace-separated words (the loop stops at exactly 5 words,
    not at fewer than 5). -/
theorem optimize_length_long (f : Nat → Nat) (g : Nat) (t : Str) (h : 65 < t.length) :
    (optimize_length f g t).length ≤ 60 ∨
      (splitWs (optimize_length f g t)).length ≤ 5 := by
  rw [optimize_length_long_eq f g t h]
  have hpost : ¬(60 < (joinSp (shorten f (splitWs t))).length ∧
      5 < (shorten f (splitWs t)).length) :=
    shortenFuel_post f (splitWs t).length 0 (splitWs t) le_rfl
  have hgood : goodWords (shorten f (splitWs t)) :=
    shortenFuel_good f (splitWs t).length 0 (splitWs t) (splitWs_good t)
  by_cases h60 : (joinSp (shorten f (splitWs t))).length ≤ 60
  · exact Or.inl h60
  · right
    rw [splitWs_joinSp _ hgood]
    omega

/-- C1 counterexample: a 79-character title made of exactly 5 long words is
    returned with length 79 and exactly 5 words, so the returned string
    neither has length at most 60 nor fewer than 5 words. -/
def cexC1 : Str := joinSp (List.replicate 5 (List.replicate 15 'a'))

/-- C1 counterexample theorem: the claim as stated fails on cexC1. -/
theorem optimize_length_long_cex :
    65 < cexC1.length ∧
      ¬((optimize_length (fun _ => 0) 0 cexC1).length ≤ 60 ∨
        (splitWs (optimize_length (fun _ => 0) 0 cexC1)).length < 5) := by decide

/-- Title used in the witnesses of the optimize_length claims. -/
def wOpt : Str := joinSp (List.replicate 6 (List.replicate 11 'b'))

/-- C1 witness: the amended disjunction evaluated on a concrete 71-character
    title. -/
theorem optimize_length_long_w :
    65 < wOpt.length ∧
      ((optimize_length (fun _ => 0) 0 wOpt).length ≤ 60 ∨
        (splitWs (optimize_length (fun _ => 0) 0 wOpt)).length ≤ 5) :=
  ⟨by decide, optimize_length_long (fun _ => 0) 0 wOpt (by decide)⟩

/-- C4 (amended): for a title longer than 65 characters, a second application
    of optimize_length to the result of a first one changes nothing, provided
    the first result still has at least 40 characters; a first result shorter
    than 40 characters gets a bracket suffix appended by the second call. -/
theorem optimize_length_idem (f f2 : Nat → Nat) (g g2 : Nat) (t : Str)
    (h : 65 < t.length) (h40 : 40 ≤ (optimize_length f g t).length) :
    optimize_length f2 g2 (optimize_length f g t) = optimize_length f g t := by
  rw [optimize_length_long_eq f g t h] at h40 ⊢
  have hpost : ¬(60 < (joinSp (shorten f (splitWs t))).length ∧
      5 < (shorten f (splitWs t)).length) :=
    shortenFuel_post f (splitWs t).length 0 (splitWs t) le_rfl
  have hgood : goodWords (shorten f (splitWs t)) :=
    shortenFuel_good f (splitWs t).length 0 (splitWs t) (splitWs_good t)
  by_cases h65 : 65 < (joinSp (shorten f (splitWs t))).length
  · unfold optimize_length
    rw [if_neg (by omega), if_pos h65]
    rw [splitWs_joinSp _ hgood]
    have h5 : (shorten f (splitWs t)).length ≤ 5 := by omega
    rw [show shorten f2 (shorten f (splitWs t)) = shorten f (splitWs t) from
      shortenFuel_noop f2 _ 0 _ (by omega)]
  · unfold optimize_length
    rw [if_neg (by omega), if_neg h65]

/-- C4 counterexample input: six words of sizes 7,7,30,7,7,7; removing the
    30-character word leaves 39 characters, so the second call appends a
    bracket suffix. -/
def cexC4 : Str :=
  joinSp [ List.replicate 7 'a', List.replicate 7 'a', List.replicate 30 'X',
    List.replicate 7 'a', List.replicate 7 'a', List.replicate 7 'a' ]

/-- C4 counterexample theorem: a title longer than 65 characters on which the
    second application of optimize_length changes the first result. -/
theorem optimize_length_idem_cex :
    65 < cexC4.length ∧
      optimize_length (fun _ => 0) 0 (optimize_length (fun _ => 0) 0 cexC4) ≠
        optimize_length (fun _ => 0) 0 cexC4 := by decide

/-- C4 witness: the amended idempotence evaluated on a concrete 71-character
    title whose first result keeps 59 characters. -/
theorem optimize_length_idem_w :
    65 < wOpt.length ∧ 40 ≤ (optimize_length (fun _ => 0) 0 wOpt).length ∧
      optimize_length (fun _ => 1) 1 (optimize_length (fun _ => 0) 0 wOpt) =
        optimize_length (fun _ => 0) 0 wOpt :=
  ⟨by decide, by decide,
    optimize_length_idem (fun _ => 0) (fun _ => 1) 0 1 wOpt (by decide) (by decide)⟩

/-- Power-word test of the predict_ctr heuristic fallback: some catalog power
    word occurs case-insensitively in the title. -/
def hasPowerWord (t : Str) : Bool :=
  POWER_WORDS.any (fun pw => isSubstr (lowerStr pw) (lowerStr t))

/-- Python str.isdigit on a word: non-empty and all digits. -/
def pyIsDigit (w : Str) : Bool := !w.isEmpty && w.all Char.isDigit

/-- Digit test of the heuristic: some whitespace token is purely numeric. -/
def hasDigitWord (t : Str) : Bool := (splitWs t).any pyIsDigit

/-- Python str.endswith with a question mark. -/
def endsWithQ (t : Str) : Bool := decide (t.getLast? = some '?')

/-- The length sub-score of the heuristic fallback of predict_ctr. -/
def length_score (t : Str) : ℚ := max 0 (1 - |(t.length : ℚ) - 50| / 50)

/-- The power-word sub-score of the heuristic fallback of predict_ctr. -/
def power_word_score (t : Str) : ℚ := if hasPowerWord t then 0.5 else 0

/-- The numeric-token sub-score of the heuristic fallback of predict_ctr. -/
def number_score (t : Str) : ℚ := if hasDigitWord t then 0.3 else 0

/-- The question-mark sub-score of the heuristic fallback of predict_ctr. -/
def question_score (t : Str) : ℚ := if endsWithQ t then 0.4 else 0

/-- The raw heuristic score of predict_ctr before clamping. -/
def ctr_raw (t : Str) : ℚ :=
  3 + length_score t * 3 + power_word_score t * 2 + number_score t + question_score t

/-- The clamp min(12, max(1, ctr)) of predict_ctr. -/
def ctr_clamped (t : Str) : ℚ := min 12 (max 1 (ctr_raw t))

/-- The three rating labels of predict_ctr. -/
inductive Rating
  | good
  | avg
  | bad
  deriving DecidableEq

/-- The rating of predict_ctr: computed from the clamped score before it is
    rounded, exactly as in the source. -/
def ctr_rating (t : Str) : Rating :=
  if 7 < ctr_clamped t then Rating.good
  else if 4 < ctr_clamped t then Rating.avg else Rating.bad

/-- Result record of predict_ctr. -/
structure CTRResult where
  value : ℚ
  rating : Rating
  deriving DecidableEq

/-- Round half to even on rationals, the tie behaviour of the Python round
    builtin.  Every score of the heuristic is a multiple of one fiftieth, so
    ties never arise on reachable inputs and the model agrees with the float
    computation of the source on them. -/
def rhe (q : ℚ) : ℤ :=
  if q - ⌊q⌋ < 1/2 then ⌊q⌋
  else if 1/2 < q - ⌊q⌋ then ⌊q⌋ + 1
  else if ⌊q⌋ % 2 = 0 then ⌊q⌋ else ⌊q⌋ + 1

/-- Python round(x, 1). -/
def pyRound1 (q : ℚ) : ℚ := (rhe (10 * q) : ℚ) / 10

/-- The heuristic fallback branch of predict_ctr of app.py (the branch taken
    when no trained model artifacts are available). -/
def predict_ctr (t : Str) : CTRResult := ⟨pyRound1 (ctr_clamped t), ctr_rating t⟩

/-- Modelled from the spec wording of C2: the rating that the fixed
    thresholds assign to the returned, rounded value. -/
def ratingFromValue (v : ℚ) : Rating :=
  if 7 < v then Rating.good else if 4 < v then Rating.avg else Rating.bad

theorem rhe_le (q : ℚ) : (rhe q : ℚ) ≤ q + 1/2 := by
  unfold rhe
  have h1 := Int.floor_le q
  have h2 := Int.lt_floor_add_one q
  split_ifs with a b c <;> push_cast <;> linarith

theorem rhe_ge (q : ℚ) : q - 1/2 ≤ (rhe q : ℚ) := by
  unfold rhe
  have h1 := Int.floor_le q
  have h2 := Int.lt_floor_add_one q
  split_ifs with a b c <;> push_cast <;> linarith

theorem pyRound1_le (q b : ℚ) (n : ℤ) (hb : 10 * b = (n : ℚ)) (h : q ≤ b) :
    pyRound1 q ≤ b := by
  unfold pyRound1
  have h1 := rhe_le (10 * q)
  have h2 : (rhe (10 * q) : ℚ) < (n : ℚ) + 1 := by linarith
  have h3 : rhe (10 * q) < n + 1 := by exact_mod_cast h2
  have h4 : (rhe (10 * q) : ℚ) ≤ (n : ℚ) := by exact_mod_cast Int.lt_add_one_iff.mp h3
  rw [div_le_iff₀ (by norm_num : (0:ℚ) < 10)]
  linarith

theorem pyRound1_ge (q b : ℚ) (n : ℤ) (hb : 10 * b = (n : ℚ)) (h : b ≤ q) :
    b ≤ pyRound1 q := by
  unfold pyRound1
  have h1 := rhe_ge (10 * q)
  have h2 : (n : ℚ) - 1 < (rhe (10 * q) : ℚ) := by linarith
  have h3 : n - 1 < rhe (10 * q) := by exact_mod_cast h2
  have h4 : (n : ℚ) ≤ (rhe (10 * q) : ℚ) := by exact_mod_cast (by omega : n ≤ rhe (10 * q))
  rw [le_div_iff₀ (by norm_num : (0:ℚ) < 10)]
  linarith

theorem length_score_bounds (t : Str) : 0 ≤ length_score t ∧ length_score t ≤ 1 := by
  unfold length_score
  constructor
  · exact le_max_left 0 _
  · apply max_le (by norm_num)
    have h : 0 ≤ |(t.length : ℚ) - 50| / 50 := by positivity
    linarith

theorem power_word_score_cases (t : Str) :
    power_word_score t = 0 ∨ power_word_score t = 0.5 := by
  unfold power_word_score; split_ifs <;> simp

theorem number_score_cases (t : Str) :
    number_score t = 0 ∨ number_score t = 0.3 := by
  unfold number_score; split_ifs <;> simp

theorem question_score_cases (t : Str) :
    question_score t = 0 ∨ question_score t = 0.4 := by
  unfold question_score; split_ifs <;> simp

theorem ctr_raw_bounds (t : Str) : 3 ≤ ctr_raw t ∧ ctr_raw t ≤ 7.7 := by
  have hls := length_score_bounds t
  unfold ctr_raw
  rcases power_word_score_cases t with h1 | h1 <;>
    rcases number_score_cases t with h2 | h2 <;>
      rcases question_score_cases t with h3 | h3 <;>
        rw [h1, h2, h3] <;> constructor <;> nlinarith [hls.1, hls.2]

theorem ctr_clamped_eq_raw (t : Str) : ctr_clamped t = ctr_raw t := by
  have h := ctr_raw_bounds t
  unfold ctr_clamped
  rw [max_eq_right (by linarith), min_eq_right (by linarith)]

/-- C2 (amended): the heuristic fallback of predict_ctr returns a value in
    the interval from 1 to 12, and the returned rating is derived by the
    fixed thresholds from the clamped score before rounding (good above 7,
    avg above 4, bad otherwise); the source applies the thresholds to the
    un-rounded clamped score, not to the rounded returned value. -/
theorem predict_ctr_value_bounds (t : Str) :
    1 ≤ (predict_ctr t).value ∧ (predict_ctr t).value ≤ 12 ∧
      (predict_ctr t).rating = ratingFromValue (ctr_clamped t) := by
  have h1 : 1 ≤ ctr_clamped t := le_min (by norm_num) (le_max_left 1 _)
  have h2 : ctr_clamped t ≤ 12 := min_le_left 12 _
  exact ⟨pyRound1_ge _ 1 10 (by norm_num) h1, pyRound1_le _ 12 120 (by norm_num) h2, rfl⟩

/-- C2 counterexample input: 44 characters, contains the power word Secret,
    no digit token, ends with a question mark; the un-rounded clamped score
    is 7.04 (rated good) while the returned value rounds down to 7.0, to
    which the thresholds of the claim would assign avg. -/
def cexC2 : Str := strToL "Secret " ++ List.replicate 36 'a' ++ [ '?' ]

/-- C2 counterexample theorem: the returned rating is not the one that the
    fixed thresholds derive from the returned rounded value. -/
theorem predict_ctr_rating_cex :
    (predict_ctr cexC2).rating ≠ ratingFromValue (predict_ctr cexC2).value := by
  have h1 : hasPowerWord cexC2 = true := by decide
  have h2 : hasDigitWord cexC2 = false := by decide
  have h3 : endsWithQ cexC2 = true := by decide
  have h4 : cexC2.length = 44 := by decide
  have h5 : predict_ctr cexC2 = ⟨7, Rating.good⟩ := by
    simp only [predict_ctr, ctr_rating, ctr_clamped, ctr_raw, length_score,
      power_word_score, number_score, question_score, pyRound1, h1, h2, h3, h4,
      Bool.false_eq_true, if_false, if_true, CTRResult.mk.injEq]
    norm_num [rhe]
  rw [h5]
  norm_num [ratingFromValue]
  decide

/-- C3 (amended): the heuristic fallback of predict_ctr on the exact string
    Why This Works returns value 3.8 and rating bad: the string has 14
    characters (not 15), so the length score is 0.28 and the raw score
    3.84, which rounds to 3.8. -/
theorem predict_ctr_whyThisWorks :
    predict_ctr (strToL "Why This Works") = ⟨3.8, Rating.bad⟩ := by
  have h1 : hasPowerWord (strToL "Why This Works") = false := by decide
  have h2 : hasDigitWord (strToL "Why This Works") = false := by decide
  have h3 : endsWithQ (strToL "Why This Works") = false := by decide
  have h4 : (strToL "Why This Works").length = 14 := by decide
  simp only [predict_ctr, ctr_rating, ctr_clamped, ctr_raw, length_score,
    power_word_score, number_score, question_score, pyRound1, h1, h2, h3, h4,
    Bool.false_eq_true, if_false, CTRResult.mk.injEq]
  norm_num [rhe]

/-- C3 counterexample theorem: the value returned on Why This Works is not
    3.9 as the claim states. -/
theorem predict_ctr_whyThisWorks_cex :
    (predict_ctr (strToL "Why This Works")).value ≠ (3.9 : ℚ) := by
  have h1 : hasPowerWord (strToL "Why This Works") = false := by decide
  have h2 : hasDigitWord (strToL "Why This Works") = false := by decide
  have h3 : endsWithQ (strToL "Why This Works") = false := by decide
  have h4 : (strToL "Why This Works").length = 14 := by decide
  simp only [predict_ctr, ctr_rating, ctr_clamped, ctr_raw, length_score,
    power_word_score, number_score, question_score, pyRound1, h1, h2, h3, h4,
    Bool.false_eq_true, if_false]
  norm_num [rhe]

/-- C9: for every title the pre-clamp raw heuristic score already lies in
    the interval from 3 to 7.7 (the length score lies in the unit interval
    and the other sub-scores take only their two listed values), the clamp
    to the interval from 1 to 12 never alters the score, and the returned
    value also lies between 3 and 7.7. -/
theorem predict_ctr_preclamp_range (t : Str) :
    (0 ≤ length_score t ∧ length_score t ≤ 1) ∧
    (power_word_score t = 0 ∨ power_word_score t = 0.5) ∧
    (number_score t = 0 ∨ number_score t = 0.3) ∧
    (question_score t = 0 ∨ question_score t = 0.4) ∧
    (3 ≤ ctr_raw t ∧ ctr_raw t ≤ 7.7) ∧
    ctr_clamped t = ctr_raw t ∧
    (3 ≤ (predict_ctr t).value ∧ (predict_ctr t).value ≤ 7.7) := by
  have hr := ctr_raw_bounds t
  have hc := ctr_clamped_eq_raw t
  refine ⟨length_score_bounds t, power_word_score_cases t, number_score_cases t,
    question_score_cases t, hr, hc, ?_, ?_⟩
  · exact pyRound1_ge _ 3 30 (by norm_num) (by rw [hc]; exact hr.1)
  · exact pyRound1_le _ 7.7 77 (by norm_num) (by rw [hc]; exact hr.2)


/-- Fuelled worker of Python str.replace: replaces every non-overlapping
    occurrence of pat from the left, never rescanning the inserted
    replacement.  Fuel equal to the length of the scanned string suffices
    for a non-empty pattern, because each step consumes at least one
    character. -/
def replaceAllFuel (pat rep : Str) : Nat → Str → Str
  | 0, s => s
  | _ + 1, [] => []
  | n + 1, c :: cs =>
    if listStartsWith pat (c :: cs) then
      rep ++ replaceAllFuel pat rep n ((c :: cs).drop pat.length)
    else c :: replaceAllFuel pat rep n cs

/-- Python str.replace for the non-empty patterns used by app.py (the empty
    pattern never occurs in the repository and is mapped to the identity). -/
def replaceAll (pat rep s : Str) : Str :=
  if pat.isEmpty then s else replaceAllFuel pat rep s.length s

/-- Occurrence counter mirroring the recursion of replaceAllFuel. -/
def replCountF (pat : Str) : Nat → Str → Nat
  | 0, _ => 0
  | _ + 1, [] => 0
  | n + 1, c :: cs =>
    if listStartsWith pat (c :: cs) then
      1 + replCountF pat n ((c :: cs).drop pat.length)
    else replCountF pat n cs

theorem listStartsWith_decomp : ∀ (p s : Str), listStartsWith p s = true →
    s = p ++ s.drop p.length := by
  intro p
  induction p with
  | nil => intro s _; simp
  | cons x xs ih =>
    intro s h
    cases s with
    | nil => simp [listStartsWith] at h
    | cons y ys =>
      rw [listStartsWith] at h
      split_ifs at h with hxy
      · subst hxy
        have := ih ys h
        calc x :: ys = x :: (xs ++ ys.drop xs.length) := by rw [← this]
          _ = (x :: xs) ++ (x :: ys).drop (x :: xs).length := by simp

theorem listStartsWith_both : ∀ (s a b : Str), listStartsWith a s = true →
    listStartsWith b s = true → listStartsWith a b = true ∨ listStartsWith b a = true := by
  intro s
  induction s with
  | nil =>
    intro a b ha hb
    cases a with
    | nil => left; cases b <;> rfl
    | cons x xs => simp [listStartsWith] at ha
  | cons c cs ih =>
    intro a b ha hb
    cases a with
    | nil => left; cases b <;> rfl
    | cons x xs =>
      cases b with
      | nil => right; rfl
      | cons y ys =>
        rw [listStartsWith] at ha hb
        split_ifs at ha hb with hx hy
        subst hx; subst hy
        rcases ih xs ys ha hb with h | h
        · left; rw [listStartsWith, if_pos rfl]; exact h
        · right; rw [listStartsWith, if_pos rfl]; exact h

theorem listStartsWith_append_self : ∀ (a v : Str), listStartsWith a (a ++ v) = true := by
  intro a
  induction a with
  | nil => intro v; rfl
  | cons x xs ih => intro v; rw [List.cons_append, listStartsWith, if_pos rfl]; exact ih v

theorem isSubstr_append_left : ∀ (u q v : Str), isSubstr q v = true →
    isSubstr q (u ++ v) = true := by
  intro u
  induction u with
  | nil => intro q v h; simpa using h
  | cons a u ih =>
    intro q v h
    rw [List.cons_append, isSubstr, Bool.or_eq_true]
    exact Or.inr (ih q v h)

theorem isSubstr_self_append (a v : Str) : isSubstr a (a ++ v) = true := by
  cases a with
  | nil =>
    cases v with
    | nil => rfl
    | cons c cs => rw [List.nil_append, isSubstr, Bool.or_eq_true]; left; rfl
  | cons x xs =>
    rw [List.cons_append, isSubstr, Bool.or_eq_true]
    left
    exact listStartsWith_append_self (x :: xs) v

theorem isSubstr_skip_hdfree (hd : Char) (qt : Str) : ∀ (u v : Str),
    (∀ c ∈ u, c ≠ hd) → isSubstr (hd :: qt) (u ++ v) = true →
    isSubstr (hd :: qt) v = true := by
  intro u
  induction u with
  | nil => intro v _ h; simpa using h
  | cons a u ih =>
    intro v hu h
    rw [List.cons_append, isSubstr, Bool.or_eq_true] at h
    rcases h with h | h
    · rw [listStartsWith] at h
      split_ifs at h with hda
      exact absurd hda.symm (hu a (by simp))
    · exact ih v (fun c hc => hu c (by simp [hc])) h

theorem listStartsWith_replaceAllFuel_hdfree (hd : Char) (pt rep : Str) :
    ∀ (w : Str), (∀ c ∈ w, c ≠ hd) → ∀ (n : Nat) (s : Str), s.length ≤ n →
    listStartsWith w s = true →
    listStartsWith w (replaceAllFuel (hd :: pt) rep n s) = true := by
  intro w
  induction w with
  | nil => intro _ n s _ _; cases replaceAllFuel (hd :: pt) rep n s <;> rfl
  | cons d wt ih =>
    intro hw n s hn hsw
    cases s with
    | nil => simp [listStartsWith] at hsw
    | cons e cs =>
      rw [listStartsWith] at hsw
      split_ifs at hsw with hde
      subst hde
      cases n with
      | zero => simp at hn
      | succ m =>
        have hne : listStartsWith (hd :: pt) (d :: cs) = false := by
          rw [listStartsWith]
          rw [if_neg ?_]
          intro hcontra
          exact (hw d (by simp)) hcontra.symm
        simp only [replaceAllFuel, hne, Bool.false_eq_true, if_false]
        rw [listStartsWith, if_pos rfl]
        exact ih (fun c hc => hw c (by simp [hc])) m cs (by simpa using hn) hsw

theorem isSubstr_replaceAllFuel_preserved (hd : Char) (pt qt rep : Str)
    (hpt : ∀ c ∈ pt, c ≠ hd) (hqt : ∀ c ∈ qt, c ≠ hd)
    (h1 : listStartsWith (hd :: pt) (hd :: qt) = false)
    (h2 : listStartsWith (hd :: qt) (hd :: pt) = false) :
    ∀ (n : Nat) (s : Str), s.length ≤ n → isSubstr (hd :: qt) s = true →
    isSubstr (hd :: qt) (replaceAllFuel (hd :: pt) rep n s) = true := by
  intro n
  induction n with
  | zero =>
    intro s hn hs
    have hsnil : s = [] := List.length_eq_zero.mp (Nat.le_zero.mp hn)
    subst hsnil
    simp [isSubstr] at hs
  | succ m ih =>
    intro s hn hs
    cases s with
    | nil => simp [isSubstr] at hs
    | cons c cs =>
      by_cases hsw : listStartsWith (hd :: pt) (c :: cs) = true
      · rw [replaceAllFuel, if_pos hsw]
        have hdec := listStartsWith_decomp (hd :: pt) (c :: cs) hsw
        rw [List.cons_append] at hdec
        injection hdec with hc hcs
        rw [isSubstr, Bool.or_eq_true] at hs
        rcases hs with hs | hs
        · rcases listStartsWith_both (c :: cs) _ _ hsw hs with h | h
          · rw [h1] at h; exact absurd h (by simp)
          · rw [h2] at h; exact absurd h (by simp)
        · rw [hcs] at hs
          have hs2 : isSubstr (hd :: qt) ((c :: cs).drop (hd :: pt).length) = true :=
            isSubstr_skip_hdfree hd qt pt _ hpt hs
          have hlt : ((c :: cs).drop (hd :: pt).length).length ≤ m := by
            rw [List.length_drop]
            simp only [List.length_cons] at hn ⊢
            omega
          exact isSubstr_append_left rep _ _ (ih _ hlt hs2)
      · have hsw2 : listStartsWith (hd :: pt) (c :: cs) = false := by
          simpa using hsw
        simp only [replaceAllFuel, hsw2, Bool.false_eq_true, if_false]
        rw [isSubstr, Bool.or_eq_true] at hs
        rcases hs with hs | hs
        · rw [listStartsWith] at hs
          split_ifs at hs with hhc
          rw [isSubstr, Bool.or_eq_true]
          left
          rw [listStartsWith, if_pos hhc]
          exact listStartsWith_replaceAllFuel_hdfree hd pt rep qt hqt m cs
            (by simpa using hn) hs
        · rw [isSubstr, Bool.or_eq_true]
          right
          exact ih cs (by simpa using hn) hs

theorem isSubstr_replaceAllFuel_rep (pat rep : Str) (hpat : pat ≠ []) :
    ∀ (n : Nat) (s : Str), s.length ≤ n → isSubstr pat s = true →
    isSubstr rep (replaceAllFuel pat rep n s) = true := by
  intro n
  induction n with
  | zero =>
    intro s hn hs
    have hsnil : s = [] := List.length_eq_zero.mp (Nat.le_zero.mp hn)
    subst hsnil
    rw [isSubstr, List.isEmpty_iff] at hs
    exact absurd hs hpat
  | succ m ih =>
    intro s hn hs
    cases s with
    | nil =>
      rw [isSubstr, List.isEmpty_iff] at hs
      exact absurd hs hpat
    | cons c cs =>
      by_cases hsw : listStartsWith pat (c :: cs) = true
      · rw [replaceAllFuel, if_pos hsw]
        exact isSubstr_self_append rep _
      · have hsw2 : listStartsWith pat (c :: cs) = false := by simpa using hsw
        simp only [replaceAllFuel, hsw2, Bool.false_eq_true, if_false]
        rw [isSubstr, Bool.or_eq_true] at hs
        rcases hs with hs | hs
        · rw [hsw2] at hs; exact absurd hs (by simp)
        · rw [isSubstr, Bool.or_eq_true]
          right
          exact ih cs (by simpa using hn) hs

theorem replaceAllFuel_length (pat rep : Str) (hpat : pat ≠ []) :
    ∀ (n : Nat) (s : Str), s.length ≤ n →
    (replaceAllFuel pat rep n s).length + replCountF pat n s * pat.length =
      s.length + replCountF pat n s * rep.length := by
  intro n
  induction n with
  | zero => intro s _; simp [replaceAllFuel, replCountF]
  | succ m ih =>
    intro s hn
    cases s with
    | nil => simp [replaceAllFuel, replCountF]
    | cons c cs =>
      by_cases hsw : listStartsWith pat (c :: cs) = true
      · rw [replaceAllFuel, if_pos hsw, replCountF, if_pos hsw]
        have hdec := listStartsWith_decomp pat (c :: cs) hsw
        have hplen : 1 ≤ pat.length := by
          cases pat with
          | nil => exact absurd rfl hpat
          | cons x xs => simp
        have hlt : ((c :: cs).drop pat.length).length ≤ m := by
          rw [List.length_drop]
          simp only [List.length_cons] at hn ⊢
          omega
        have hslen : (c :: cs).length = pat.length + ((c :: cs).drop pat.length).length := by
          conv_lhs => rw [hdec]
          rw [List.length_append]
        have hih := ih _ hlt
        rw [List.length_append, Nat.add_mul, Nat.one_mul, Nat.add_mul, Nat.one_mul]
        omega
      · have hsw2 : listStartsWith pat (c :: cs) = false := by simpa using hsw
        simp only [replaceAllFuel, hsw2, Bool.false_eq_true, if_false, replCountF]
        have hih := ih cs (by simpa using hn)
        simp only [List.length_cons]
        omega

theorem replCountF_pos (pat : Str) (hpat : pat ≠ []) :
    ∀ (n : Nat) (s : Str), s.length ≤ n → isSubstr pat s = true →
    0 < replCountF pat n s := by
  intro n
  induction n with
  | zero =>
    intro s hn hs
    have hsnil : s = [] := List.length_eq_zero.mp (Nat.le_zero.mp hn)
    subst hsnil
    rw [isSubstr, List.isEmpty_iff] at hs
    exact absurd hs hpat
  | succ m ih =>
    intro s hn hs
    cases s with
    | nil =>
      rw [isSubstr, List.isEmpty_iff] at hs
      exact absurd hs hpat
    | cons c cs =>
      by_cases hsw : listStartsWith pat (c :: cs) = true
      · rw [replCountF, if_pos hsw]; omega
      · have hsw2 : listStartsWith pat (c :: cs) = false := by simpa using hsw
        simp only [replCountF, hsw2, Bool.false_eq_true, if_false]
        rw [isSubstr, Bool.or_eq_true] at hs
        rcases hs with hs | hs
        · rw [hsw2] at hs; exact absurd hs (by simp)
        · exact ih cs (by simpa using hn) hs

theorem replaceAllFuel_ne (pat rep : Str) (hpat : pat ≠ [])
    (hlen : rep.length = pat.length) (hne : rep ≠ pat) :
    ∀ (n : Nat) (s : Str), s.length ≤ n → isSubstr pat s = true →
    replaceAllFuel pat rep n s ≠ s := by
  intro n
  induction n with
  | zero =>
    intro s hn hs
    have hsnil : s = [] := List.length_eq_zero.mp (Nat.le_zero.mp hn)
    subst hsnil
    rw [isSubstr, List.isEmpty_iff] at hs
    exact absurd hs hpat
  | succ m ih =>
    intro s hn hs
    cases s with
    | nil =>
      rw [isSubstr, List.isEmpty_iff] at hs
      exact absurd hs hpat
    | cons c cs =>
      by_cases hsw : listStartsWith pat (c :: cs) = true
      · rw [replaceAllFuel, if_pos hsw]
        intro heq
        have hdec := listStartsWith_decomp pat (c :: cs) hsw
        rw [hdec] at heq
        exact hne (List.append_inj heq (by rw [hlen])).1
      · have hsw2 : listStartsWith pat (c :: cs) = false := by simpa using hsw
        simp only [replaceAllFuel, hsw2, Bool.false_eq_true, if_false]
        intro heq
        injection heq with _ htail
        rw [isSubstr, Bool.or_eq_true] at hs
        rcases hs with hs | hs
        · rw [hsw2] at hs; exact absurd hs (by simp)
        · exact ih cs (by simpa using hn) hs htail

theorem replaceAll_preserves (hd : Char) (pt qt rep : Str)
    (hpt : ∀ c ∈ pt, c ≠ hd) (hqt : ∀ c ∈ qt, c ≠ hd)
    (h1 : listStartsWith (hd :: pt) (hd :: qt) = false)
    (h2 : listStartsWith (hd :: qt) (hd :: pt) = false)
    (s : Str) (hs : isSubstr (hd :: qt) s = true) :
    isSubstr (hd :: qt) (replaceAll (hd :: pt) rep s) = true := by
  unfold replaceAll
  rw [if_neg (by simp)]
  exact isSubstr_replaceAllFuel_preserved hd pt qt rep hpt hqt h1 h2 s.length s le_rfl hs

theorem replaceAll_rep (pat rep s : Str) (hpat : pat ≠ [])
    (hs : isSubstr pat s = true) : isSubstr rep (replaceAll pat rep s) = true := by
  unfold replaceAll
  rw [if_neg (fun h => hpat (List.isEmpty_iff.mp h))]
  exact isSubstr_replaceAllFuel_rep pat rep hpat s.length s le_rfl hs

theorem replaceAll_ne (pat rep s : Str) (hpat : pat ≠ []) (hne : rep ≠ pat)
    (hs : isSubstr pat s = true) : replaceAll pat rep s ≠ s := by
  unfold replaceAll
  rw [if_neg (fun h => hpat (List.isEmpty_iff.mp h))]
  intro heq
  have hL := replaceAllFuel_length pat rep hpat s.length s le_rfl
  have hP := replCountF_pos pat hpat s.length s le_rfl hs
  have hlen2 : (replaceAllFuel pat rep s.length s).length = s.length := by rw [heq]
  have hmul : replCountF pat s.length s * pat.length =
      replCountF pat s.length s * rep.length := by omega
  have hpl : pat.length = rep.length := Nat.eq_of_mul_eq_mul_left hP hmul
  exact replaceAllFuel_ne pat rep hpat hpl.symm hne s.length s le_rfl hs heq

/-- The number marker of the template catalog. -/
def numPat : Str := strToL "\x7bnumber\x7d"

/-- The power-word marker of the template catalog. -/
def pwPat : Str := strToL "\x7bpower_word\x7d"

/-- The keyword marker of the template catalog. -/
def kwPat : Str := strToL "\x7bkeyword\x7d"

/-- One accepted template instantiation of generate_titles: substitute the
    number marker, then the power-word marker, then the keyword marker, in
    the insertion order of the replacements dict of the source. -/
def instantiate (kw : Str) (a b : Nat) (tpl : Str) : Str :=
  replaceAll kwPat kw
    (replaceAll pwPat (pick [] POWER_WORDS b)
      (replaceAll numPat (natToStr (pick 0 NUMBERS a)) tpl))

/-- The while loop of generate_titles.  The streams ft, fn and fp model the
    template, number and power-word choices of the random module, indexed by
    the iteration counter; fuel bounds the number of iterations and none
    models a run that does not terminate within it.  The accumulator keeps
    each accepted template next to the title built from it, mirroring the
    used_templates set and titles list of the source. -/
def genLoop (ft fn fp : Nat → Nat) (kw : Str) :
    Nat → Nat → List (Str × Str) → Option (List (Str × Str))
  | 0, _, _ => none
  | fuel + 1, k, acc =>
    if acc.length < 3 then
      if pick [] TEMPLATES (ft k) ∈ acc.map Prod.fst then
        genLoop ft fn fp kw fuel (k + 1) acc
      else
        genLoop ft fn fp kw fuel (k + 1)
          (acc ++ [(pick [] TEMPLATES (ft k),
            instantiate kw (fn k) (fp k) (pick [] TEMPLATES (ft k)))])
    else some acc

/-- generate_titles of app.py.  The competitor title is accepted and ignored,
    exactly as in the source. -/
def generate_titles (competitor_title : Str) (ft fn fp : Nat → Nat) (fuel : Nat)
    (kw : Str) : Option (List Str) :=
  (genLoop ft fn fp kw fuel 0 []).map (fun pairs => (pairs.map Prod.snd).take 3)

theorem pick_mem {α : Type} (d : α) (l : List α) (i : Nat) (h : l ≠ []) :
    pick d l i ∈ l := by
  unfold pick
  have hpos : 0 < l.length := List.length_pos.mpr h
  have hlt : i % l.length < l.length := Nat.mod_lt i hpos
  rw [List.getD_eq_getElem l d hlt]
  exact List.getElem_mem hlt

theorem genLoop_sound (ft fn fp : Nat → Nat) (kw : Str) :
    ∀ (fuel k : Nat) (acc res : List (Str × Str)), acc.length ≤ 3 →
    (acc.map Prod.fst).Nodup →
    genLoop ft fn fp kw fuel k acc = some res →
    res.length = 3 ∧ (res.map Prod.fst).Nodup ∧
      ∀ p ∈ res, p ∈ acc ∨ (p.1 ∈ TEMPLATES ∧ ∃ a b, p.2 = instantiate kw a b p.1) := by
  intro fuel
  induction fuel with
  | zero => intro k acc res _ _ h; simp [genLoop] at h
  | succ fuel ih =>
    intro k acc res hlen hnd h
    simp only [genLoop] at h
    by_cases h3 : acc.length < 3
    · rw [if_pos h3] at h
      by_cases hmem : pick [] TEMPLATES (ft k) ∈ acc.map Prod.fst
      · rw [if_pos hmem] at h
        exact ih (k + 1) acc res hlen hnd h
      · rw [if_neg hmem] at h
        have hnd2 : ((acc ++ [(pick [] TEMPLATES (ft k),
            instantiate kw (fn k) (fp k) (pick [] TEMPLATES (ft k)))]).map
              Prod.fst).Nodup := by
          rw [List.map_append]
          refine List.Nodup.append hnd (by simp) ?_
          intro x hx hy
          simp only [List.map_cons, List.map_nil, List.mem_singleton] at hy
          subst hy
          exact hmem hx
        have hlen2 : (acc ++ [(pick [] TEMPLATES (ft k),
            instantiate kw (fn k) (fp k) (pick [] TEMPLATES (ft k)))]).length ≤ 3 := by
          rw [List.length_append]
          simp only [List.length_singleton]
          omega
        obtain ⟨ha, hb, hc⟩ := ih (k + 1) _ res hlen2 hnd2 h
        refine ⟨ha, hb, fun p hp => ?_⟩
        rcases hc p hp with hin | hnew
        · rcases List.mem_append.mp hin with hi | hi
          · exact Or.inl hi
          · simp only [List.mem_singleton] at hi
            subst hi
            exact Or.inr ⟨pick_mem [] TEMPLATES (ft k) (by decide), fn k, fp k, rfl⟩
        · exact Or.inr hnew
    · rw [if_neg h3] at h
      injection h with h
      subst h
      exact ⟨by omega, hnd, fun p hp => Or.inl hp⟩

/-- C6: whenever the generation loop terminates, generate_titles returns
    exactly 3 titles, built from 3 pairwise distinct templates of the
    10-template catalog, and in particular no two returned titles come from
    the same template. -/
theorem generate_titles_three (ft fn fp : Nat → Nat) (fuel : Nat) (kw : Str)
    (pairs : List (Str × Str)) (h : genLoop ft fn fp kw fuel 0 [] = some pairs) :
    pairs.length = 3 ∧ (pairs.map Prod.fst).Nodup ∧
      ∀ ct, generate_titles ct ft fn fp fuel kw = some (pairs.map Prod.snd) := by
  obtain ⟨h3, hnd, _⟩ := genLoop_sound ft fn fp kw fuel 0 [] pairs (by simp) (by simp) h
  refine ⟨h3, hnd, fun ct => ?_⟩
  unfold generate_titles
  rw [h, Option.map_some']
  rw [List.take_of_length_le (by rw [List.length_map]; omega)]

/-- Template-title pairs of the concrete generation run used as witness. -/
def wGenPairs : List (Str × Str) :=
  [ (strToL "\x7bnumber\x7d \x7bpower_word\x7d \x7bkeyword\x7d Tips Nobody Tells You",
      strToL "3 Secret chess Tips Nobody Tells You"),
    (strToL "The \x7bpower_word\x7d Guide to \x7bkeyword\x7d [You Need This]",
      strToL "The Secret Guide to chess [You Need This]"),
    (strToL "How I \x7bkeyword\x7d Like a Pro (\x7bpower_word\x7d Method)",
      strToL "How I chess Like a Pro (Secret Method)") ]

/-- C6 witness: a concrete terminating run returns the 3 titles of wGenPairs,
    built from 3 distinct templates. -/
theorem generate_titles_three_w :
    genLoop (fun k => k) (fun _ => 0) (fun _ => 0) (strToL "chess") 4 0 [] =
        some wGenPairs ∧
      wGenPairs.length = 3 ∧ (wGenPairs.map Prod.fst).Nodup ∧
      generate_titles [] (fun k => k) (fun _ => 0) (fun _ => 0) 4 (strToL "chess") =
        some (wGenPairs.map Prod.snd) :=
  have h : genLoop (fun k => k) (fun _ => 0) (fun _ => 0) (strToL "chess") 4 0 [] =
      some wGenPairs := by decide
  have hall := generate_titles_three (fun k => k) (fun _ => 0) (fun _ => 0) 4
    (strToL "chess") wGenPairs h
  ⟨h, hall.1, hall.2.1, hall.2.2 []⟩

/-- C8: generate_titles does not depend on the competitor-title argument:
    with the same keyword and the same random choice streams, any two
    competitor titles give equal outputs. -/
theorem generate_titles_ct_indep (c1 c2 : Str) (ft fn fp : Nat → Nat)
    (fuel : Nat) (kw : Str) :
    generate_titles c1 ft fn fp fuel kw = generate_titles c2 ft fn fp fuel kw := rfl

theorem replaceAll_preserves_pats (pat q rep : Str) (hd : Char) (pt qt : Str)
    (hpat : pat = hd :: pt) (hq : q = hd :: qt)
    (hpt : ∀ c ∈ pt, c ≠ hd) (hqt : ∀ c ∈ qt, c ≠ hd)
    (h1 : listStartsWith pat q = false) (h2 : listStartsWith q pat = false)
    (s : Str) (hs : isSubstr q s = true) :
    isSubstr q (replaceAll pat rep s) = true := by
  subst hpat
  subst hq
  exact replaceAll_preserves hd pt qt rep hpt hqt h1 h2 s hs

theorem instantiate_keyword (kw : Str) (a b : Nat) (tpl : Str)
    (htpl : tpl ∈ TEMPLATES) : isSubstr kw (instantiate kw a b tpl) = true := by
  have h0 : ∀ x ∈ TEMPLATES, isSubstr kwPat x = true := by decide
  have hn1 : isSubstr kwPat (replaceAll numPat (natToStr (pick 0 NUMBERS a)) tpl) = true :=
    replaceAll_preserves_pats numPat kwPat (natToStr (pick 0 NUMBERS a)) '\x7b'
      (strToL "number\x7d") (strToL "keyword\x7d") rfl rfl (by decide) (by decide)
      (by decide) (by decide) tpl (h0 tpl htpl)
  have hn2 : isSubstr kwPat (replaceAll pwPat (pick [] POWER_WORDS b)
      (replaceAll numPat (natToStr (pick 0 NUMBERS a)) tpl)) = true :=
    replaceAll_preserves_pats pwPat kwPat (pick [] POWER_WORDS b) '\x7b'
      (strToL "power_word\x7d") (strToL "keyword\x7d") rfl rfl (by decide) (by decide)
      (by decide) (by decide) _ hn1
  exact replaceAll_rep kwPat kw _ (by decide) hn2

/-- C10: every title returned by generate_titles contains the keyword
    argument verbatim as a contiguous substring: every catalog template
    contains the keyword marker, the earlier number and power-word
    substitutions cannot destroy it, and the keyword is substituted last. -/
theorem generate_titles_keyword (ct : Str) (ft fn fp : Nat → Nat) (fuel : Nat)
    (kw : Str) (ts : List Str) (h : generate_titles ct ft fn fp fuel kw = some ts) :
    ∀ t ∈ ts, isSubstr kw t = true := by
  unfold generate_titles at h
  obtain ⟨pairs, hp, hts⟩ := Option.map_eq_some'.mp h
  obtain ⟨h3, hnd, hmem⟩ := genLoop_sound ft fn fp kw fuel 0 [] pairs (by simp) (by simp) hp
  intro t ht
  rw [← hts] at ht
  have ht2 : t ∈ pairs.map Prod.snd := List.take_subset 3 _ ht
  obtain ⟨p, hpmem, hpt⟩ := List.mem_map.mp ht2
  rcases hmem p hpmem with hin | ⟨htpl, a, b, heq⟩
  · simp at hin
  · rw [← hpt, heq]
    exact instantiate_keyword kw a b p.1 htpl

/-- C10 witness: the keyword chess occurs in a title of a concrete run. -/
theorem generate_titles_keyword_w :
    generate_titles [] (fun k => k) (fun _ => 0) (fun _ => 0) 4 (strToL "chess") =
        some (wGenPairs.map Prod.snd) ∧
      isSubstr (strToL "chess") (strToL "3 Secret chess Tips Nobody Tells You") = true :=
  have hgen : generate_titles [] (fun k => k) (fun _ => 0) (fun _ => 0) 4
      (strToL "chess") = some (wGenPairs.map Prod.snd) := by decide
  ⟨hgen, generate_titles_keyword [] (fun k => k) (fun _ => 0) (fun _ => 0) 4
    (strToL "chess") (wGenPairs.map Prod.snd) hgen
    (strToL "3 Secret chess Tips Nobody Tells You") (by decide)⟩

/-- The first catalog power word (in catalog order) that occurs
    case-insensitively in the title, as scanned by the for loop of rule 3 of
    generate_ab_test_variants. -/
def firstMatchingPW (t : Str) : Option Str :=
  POWER_WORDS.find? (fun pw => isSubstr (lowerStr pw) (lowerStr t))

/-- The replacement power word of rule 3: a uniform choice from the catalog
    entries different from the matched word. -/
def swapChoice (c : Nat) (pw : Str) : Str :=
  pick [] (POWER_WORDS.filter (fun p => decide (p ≠ pw))) c

/-- Rule 3 (power-word swap) of generate_ab_test_variants: on the first
    case-insensitive match the candidate is built with the case-sensitive
    str.replace of the catalog-case word; none when no power word matches. -/
def powerWordSwap (c : Nat) (t : Str) : Option Str :=
  match firstMatchingPW t with
  | none => none
  | some pw => some (replaceAll pw (swapChoice c pw) t)

theorem swapPool_ne_nil (pw : Str) :
    POWER_WORDS.filter (fun p => decide (p ≠ pw)) ≠ [] := by
  intro h
  rw [List.filter_eq_nil_iff] at h
  have h1 := h (strToL "Secret") (by decide)
  have h2 := h (strToL "Ultimate") (by decide)
  simp only [decide_eq_true_eq, not_not] at h1 h2
  exact absurd (h1.trans h2.symm) (by decide)

theorem swapChoice_mem (c : Nat) (pw : Str) :
    swapChoice c pw ∈ POWER_WORDS ∧ swapChoice c pw ≠ pw := by
  have hmem : swapChoice c pw ∈ POWER_WORDS.filter (fun p => decide (p ≠ pw)) :=
    pick_mem [] (POWER_WORDS.filter (fun p => decide (p ≠ pw))) c (swapPool_ne_nil pw)
  rw [List.mem_filter] at hmem
  have h2 := hmem.2
  simp only [decide_eq_true_eq] at h2
  exact ⟨hmem.1, h2⟩

/-- C7 (amended): whenever a catalog power word occurs case-insensitively in
    the title, the swap rule produces the candidate obtained by replacing
    every exact catalog-case occurrence of the first such word with a
    different catalog power word; the candidate differs from the title
    whenever the matched word also occurs in its exact catalog case (while a
    match in different case only leaves the candidate equal to the title,
    because str.replace is case-sensitive). -/
theorem ab_power_word_swap (c : Nat) (t pw : Str)
    (h : firstMatchingPW t = some pw) :
    swapChoice c pw ∈ POWER_WORDS ∧ swapChoice c pw ≠ pw ∧
      powerWordSwap c t = some (replaceAll pw (swapChoice c pw) t) ∧
      (isSubstr pw t = true → replaceAll pw (swapChoice c pw) t ≠ t) := by
  have hm := swapChoice_mem c pw
  have hpw_mem : pw ∈ POWER_WORDS := List.mem_of_find?_eq_some h
  have hpw_ne : pw ≠ [] := by
    have hall : ∀ w ∈ POWER_WORDS, w ≠ ([] : Str) := by decide
    exact hall pw hpw_mem
  refine ⟨hm.1, hm.2, ?_, ?_⟩
  · unfold powerWordSwap
    rw [h]
  · intro hsub
    exact replaceAll_ne pw (swapChoice c pw) t hpw_ne hm.2 hsub

/-- C7 counterexample input: the title contains secret only in lower case. -/
def cexC7 : Str := strToL "secret stuff"

/-- C7 counterexample theorem: the rule fires on a case-insensitive match but
    the produced candidate equals the input title, contradicting the claim
    that the original-case occurrence is replaced and the candidate differs. -/
theorem ab_power_word_swap_cex :
    firstMatchingPW cexC7 = some (strToL "Secret") ∧
      powerWordSwap 0 cexC7 = some cexC7 := by decide

/-- Title of the C7 witness, with the power word in exact catalog case. -/
def wC7 : Str := strToL "Secret stuff"

/-- C7 witness: the amended statement evaluated on a concrete title that
    contains Secret in catalog case; the candidate differs from the title. -/
theorem ab_power_word_swap_w :
    firstMatchingPW wC7 = some (strToL "Secret") ∧
      isSubstr (strToL "Secret") wC7 = true ∧
      swapChoice 0 (strToL "Secret") ∈ POWER_WORDS ∧
      swapChoice 0 (strToL "Secret") ≠ strToL "Secret" ∧
      powerWordSwap 0 wC7 =
        some (replaceAll (strToL "Secret") (swapChoice 0 (strToL "Secret")) wC7) ∧
      replaceAll (strToL "Secret") (swapChoice 0 (strToL "Secret")) wC7 ≠ wC7 :=
  have h : firstMatchingPW wC7 = some (strToL "Secret") := by decide
  have hall := ab_power_word_swap 0 wC7 (strToL "Secret") h
  ⟨h, by decide, hall.1, hall.2.1, hall.2.2.1, hall.2.2.2 (by decide)⟩
